import Mathlib

/-
Verification of the 1D kinetic shallow-water solver with recharge
(`kinetic_sw_recharge.py`).  The numerical routines are embedded over the
real numbers: numpy arrays become functions `ℕ → ℝ` together with an
explicit length, elementwise numpy operations become pointwise real
operations, `np.sqrt` becomes `Real.sqrt`, `np.pi` becomes `Real.pi`,
`np.maximum` becomes `max` and `np.sum` over a grid of `m` points becomes
a `Finset.range m` sum.
-/

namespace KineticSW

/-- Gravitational constant, module-level `g = 9.81` in the source. -/
noncomputable def g : ℝ := 9.81

/-- Default dry tolerance `h_eps = 1e-8` used by the source's keyword
defaults (`maxwellian`, `max_wave_speed`, `step_kinetic`). -/
noncomputable def h_eps_default : ℝ := 1e-8

/-- `chi(omega)`: the kinetic weight kernel.  The source computes
`inside = 2.0 * g - omega**2`, clips it with `np.maximum(inside, 0.0)` and
returns `(1.0 / (np.pi * g)) * np.sqrt(inside)`. -/
noncomputable def chi (omega : ℝ) : ℝ :=
  (1 / (Real.pi * g)) * Real.sqrt (max (2 * g - omega ^ 2) 0)

/-- `maxwellian(h, u, xi, h_eps)`: the kinetic Maxwellian.  The source
returns the zero vector (`np.zeros_like(xi)`) when `h <= h_eps`, and
otherwise `sqrt(h) * chi((xi - u) / sqrt(h))` elementwise; here the vector
is represented pointwise, indexed by the grid position `j`. -/
noncomputable def maxwellian (h u : ℝ) (xi : ℕ → ℝ) (h_eps : ℝ) : ℕ → ℝ :=
  fun j =>
    if h ≤ h_eps then 0
    else Real.sqrt h * chi ((xi j - u) / Real.sqrt h)

/-- The Maxwellian as a function of the kinetic-velocity value alone:
`maxwellian h u xi h_eps j = maxwellianP h u h_eps (xi j)` definitionally.
Used to reason about the quadrature sums by reflecting grid values. -/
noncomputable def maxwellianP (h u h_eps x : ℝ) : ℝ :=
  if h ≤ h_eps then 0
  else Real.sqrt h * chi ((x - u) / Real.sqrt h)

/-- `kinetic_flux(hL, uL, hR, uR, xi, dxi)`: upwind the two Maxwellians in
kinetic velocity (`np.where(xi >= 0.0, ML, MR)`) and return the first and
second moments `np.sum(xi * M_up) * dxi` and `np.sum(xi**2 * M_up) * dxi`.
The grid has `m` quadrature points. -/
noncomputable def kinetic_flux (hL uL hR uR : ℝ) (xi : ℕ → ℝ) (m : ℕ)
    (dxi : ℝ) : ℝ × ℝ :=
  let ML := maxwellian hL uL xi h_eps_default
  let MR := maxwellian hR uR xi h_eps_default
  let M_up : ℕ → ℝ := fun j => if 0 ≤ xi j then ML j else MR j
  let F_mass := (∑ j ∈ Finset.range m, xi j * M_up j) * dxi
  let F_mom := (∑ j ∈ Finset.range m, xi j ^ 2 * M_up j) * dxi
  (F_mass, F_mom)

/-- `max_wave_speed(h, u, h_eps)` over a non-empty field of `n + 1` cells:
`h_pos = np.maximum(h, h_eps)`, `c = np.sqrt(2.0 * g * h_pos)`, and the
return value is `np.max(np.abs(u) + c)`. -/
noncomputable def max_wave_speed (n : ℕ) (h u : ℕ → ℝ) (h_eps : ℝ) : ℝ :=
  (Finset.range (n + 1)).sup' Finset.nonempty_range_succ
    fun i => |u i| + Real.sqrt (2 * g * max (h i) h_eps)

/-- The bed-slope gradient array `dZdx` of `step_kinetic` over `N` cells:
zero-initialised; when `N > 1` the interior entries `1 .. N-2` get the
central difference `(Z[i+1] - Z[i-1]) / (2 dx)`, then entry `0` gets
`(Z[1] - Z[0]) / dx` and entry `N-1` gets `(Z[N-1] - Z[N-2]) / dx`. -/
noncomputable def dZdx (N : ℕ) (Z : ℕ → ℝ) (dx : ℝ) : ℕ → ℝ :=
  if 1 < N then
    fun i =>
      if i = 0 then (Z 1 - Z 0) / dx
      else if i = N - 1 then (Z (N - 1) - Z (N - 2)) / dx
      else (Z (i + 1) - Z (i - 1)) / (2 * dx)
  else fun _ => 0

/-- The recharge source `S` of `step_kinetic`: `S = R.copy()`, and
`S = S - I` when infiltration is present. -/
noncomputable def step_S (R : ℕ → ℝ) (I : Option (ℕ → ℝ)) : ℕ → ℝ :=
  fun i =>
    match I with
    | none => R i
    | some Iv => R i - Iv i

/-- The cell velocity of `step_kinetic`: `h_pos = np.maximum(h, h_eps)`
and `u = hu / h_pos`. -/
noncomputable def step_u (h hu : ℕ → ℝ) (h_eps : ℝ) : ℕ → ℝ :=
  fun i => hu i / max (h i) h_eps

/-- The interface fluxes `(F_mass[i], F_mom[i])` of `step_kinetic` for
`i = 0 .. N`: the reflective left wall at `i = 0` (left state
`(h[0], -u[0])`, right state `(h[0], u[0])`), the reflective right wall at
`i = N` (left state `(h[N-1], u[N-1])`, right state `(h[N-1], -u[N-1])`),
and the interior pairing of cells `i-1` and `i` otherwise. -/
noncomputable def step_flux (N : ℕ) (h hu : ℕ → ℝ) (xi : ℕ → ℝ) (m : ℕ)
    (dxi : ℝ) (h_eps : ℝ) : ℕ → ℝ × ℝ :=
  fun i =>
    let u := step_u h hu h_eps
    if i = 0 then
      kinetic_flux (h 0) (-u 0) (h 0) (u 0) xi m dxi
    else if i = N then
      kinetic_flux (h (N - 1)) (u (N - 1)) (h (N - 1)) (-u (N - 1)) xi m dxi
    else
      kinetic_flux (h (i - 1)) (u (i - 1)) (h i) (u i) xi m dxi

/-- The pre-clamp depth update of `step_kinetic`:
`h_new = h - (dt / dx) * (F_mass[1:] - F_mass[:-1]) + dt * S`. -/
noncomputable def step_h_upd (N : ℕ) (h hu R : ℕ → ℝ) (I : Option (ℕ → ℝ))
    (dx dt : ℝ) (xi : ℕ → ℝ) (m : ℕ) (dxi : ℝ) (h_eps : ℝ) : ℕ → ℝ :=
  fun i =>
    h i - (dt / dx) * ((step_flux N h hu xi m dxi h_eps (i + 1)).1
      - (step_flux N h hu xi m dxi h_eps i).1) + dt * step_S R I i

/-- The pre-clamp discharge update of `step_kinetic`:
`hu_new = hu - (dt / dx) * (F_mom[1:] - F_mom[:-1]) + dt * S * u
+ dt * source_topo` with `source_topo = -g * h * dZdx`. -/
noncomputable def step_hu_upd (N : ℕ) (h hu Z R : ℕ → ℝ)
    (I : Option (ℕ → ℝ)) (dx dt : ℝ) (xi : ℕ → ℝ) (m : ℕ) (dxi : ℝ)
    (h_eps : ℝ) : ℕ → ℝ :=
  fun i =>
    hu i - (dt / dx) * ((step_flux N h hu xi m dxi h_eps (i + 1)).2
      - (step_flux N h hu xi m dxi h_eps i).2)
    + dt * step_S R I i * step_u h hu h_eps i
    + dt * (-g * h i * dZdx N Z dx i)

/-- `step_kinetic(h, hu, Z, R, I, dx, dt, xi, dxi, h_eps)` over `N` cells:
the pre-clamp updates, then `h_new = np.maximum(h_new, 0.0)` and
`hu_new[h_new < h_eps] = 0.0`. -/
noncomputable def step_kinetic (N : ℕ) (h hu Z R : ℕ → ℝ)
    (I : Option (ℕ → ℝ)) (dx dt : ℝ) (xi : ℕ → ℝ) (m : ℕ) (dxi : ℝ)
    (h_eps : ℝ) : (ℕ → ℝ) × (ℕ → ℝ) :=
  let h_new : ℕ → ℝ :=
    fun i => max (step_h_upd N h hu R I dx dt xi m dxi h_eps i) 0
  let hu_new : ℕ → ℝ :=
    fun i =>
      if h_new i < h_eps then 0
      else step_hu_upd N h hu Z R I dx dt xi m dxi h_eps i
  (h_new, hu_new)

/-- The final lines of `run`: `h_pos = np.maximum(h, 1e-8)`,
`u = hu / h_pos`, and the returned depth/velocity pair is `(h_pos, u)`. -/
noncomputable def run_finalize (h hu : ℕ → ℝ) : (ℕ → ℝ) × (ℕ → ℝ) :=
  (fun i => max (h i) 1e-8, fun i => hu i / max (h i) 1e-8)

/-- A kinetic-velocity grid of `m` points is symmetric when reflecting the
index negates the value, as holds for `np.linspace(-xi_max, xi_max, m)`. -/
def symGrid (xi : ℕ → ℝ) (m : ℕ) : Prop :=
  ∀ j < m, xi (m - 1 - j) = -xi j

/-- Basic positivity facts about `g`. -/
lemma g_pos : (0 : ℝ) < g := by norm_num [g]

/-- The prefactor `1 / (pi * g)` of `chi` is positive. -/
lemma chi_prefactor_pos : (0 : ℝ) < 1 / (Real.pi * g) :=
  one_div_pos.mpr (mul_pos Real.pi_pos g_pos)

/-- `chi` is an even function of its argument. -/
lemma chi_neg (omega : ℝ) : chi (-omega) = chi omega := by
  simp [chi, neg_sq]

/-- C6: the kinetic weight kernel `chi` computes
`(1/(pi*g)) * sqrt(max(0, 2g - omega^2))`, is nonnegative, vanishes
outside `|omega| <= sqrt(2g)`, and is symmetric. -/
theorem C6_chi_kernel (omega : ℝ) :
    chi omega = (1 / (Real.pi * g)) * Real.sqrt (max 0 (2 * g - omega ^ 2)) ∧
    0 ≤ chi omega ∧
    chi (-omega) = chi omega ∧
    (Real.sqrt (2 * g) < |omega| → chi omega = 0) := by
  refine ⟨by rw [chi, max_comm], ?_, chi_neg omega, ?_⟩
  · exact mul_nonneg (le_of_lt chi_prefactor_pos) (Real.sqrt_nonneg _)
  · intro hout
    have h2g : (0 : ℝ) ≤ 2 * g := by norm_num [g]
    have hsq : 2 * g < omega ^ 2 := by
      have := pow_lt_pow_left₀ hout (Real.sqrt_nonneg (2 * g)) two_ne_zero
      rwa [Real.sq_sqrt h2g, sq_abs] at this
    have hmax : max (2 * g - omega ^ 2) 0 = 0 :=
      max_eq_right (by linarith)
    rw [chi, hmax, Real.sqrt_zero, mul_zero]

/-- Witness for C6 at `omega = 5`: the support hypothesis holds there and
the kernel vanishes. -/
theorem C6_chi_kernel_witness :
    Real.sqrt (2 * g) < |(5 : ℝ)| ∧ chi 5 = 0 := by
  have hlt : Real.sqrt (2 * g) < |(5 : ℝ)| := by
    rw [abs_of_nonneg (by norm_num : (0 : ℝ) ≤ 5)]
    exact (Real.sqrt_lt' (by norm_num)).mpr (by norm_num [g])
  exact ⟨hlt, ((C6_chi_kernel 5).2.2.2 hlt)⟩

/-- C7: the Maxwellian mapper returns the zero vector when `h ≤ h_eps`
(regardless of `u`), and otherwise evaluates
`sqrt(h) * chi((xi - u)/sqrt(h))` elementwise. -/
theorem C7_maxwellian (h u : ℝ) (xi : ℕ → ℝ) (h_eps : ℝ) (j : ℕ) :
    (h ≤ h_eps → maxwellian h u xi h_eps j = 0) ∧
    (¬ h ≤ h_eps →
      maxwellian h u xi h_eps j =
        Real.sqrt h * chi ((xi j - u) / Real.sqrt h)) := by
  constructor
  · intro hdry
    simp [maxwellian, hdry]
  · intro hwet
    simp [maxwellian, hwet]

/-- Witness for C7: a fully dry state (`h = 0 ≤ 1e-8`) maps to zero even
with nonzero velocity. -/
theorem C7_maxwellian_witness :
    (0 : ℝ) ≤ h_eps_default ∧
      maxwellian 0 3 (fun _ => 0) h_eps_default 0 = 0 := by
  have hle : (0 : ℝ) ≤ h_eps_default := by norm_num [h_eps_default]
  exact ⟨hle, (C7_maxwellian 0 3 (fun _ => 0) h_eps_default 0).1 hle⟩

/-- Evaluating the Maxwellian vector at grid position `j` reads only the
grid value `xi j`. -/
lemma maxwellian_apply (h u : ℝ) (xi : ℕ → ℝ) (h_eps : ℝ) (j : ℕ) :
    maxwellian h u xi h_eps j = maxwellianP h u h_eps (xi j) := rfl

/-- Reflecting the kinetic velocity negates the macroscopic velocity of
the Maxwellian. -/
lemma maxwellianP_reflect (h u h_eps x : ℝ) :
    maxwellianP h u h_eps (-x) = maxwellianP h (-u) h_eps x := by
  unfold maxwellianP
  rcases le_or_lt h h_eps with hd | hd
  · simp [hd]
  · have harg : (-x - u) / Real.sqrt h = -((x - -u) / Real.sqrt h) := by
      ring
    simp [not_le.mpr hd, harg, chi_neg]

/-- A quadrature sum of an odd integrand over a symmetric grid vanishes. -/
lemma sum_antisym_eq_zero (xi : ℕ → ℝ) (m : ℕ) (hsym : symGrid xi m)
    (f : ℝ → ℝ) (hf : ∀ x, f (-x) = -f x) :
    ∑ j ∈ Finset.range m, f (xi j) = 0 := by
  have hrefl : ∑ j ∈ Finset.range m, f (xi (m - 1 - j))
      = ∑ j ∈ Finset.range m, f (xi j) :=
    Finset.sum_range_reflect (fun j => f (xi j)) m
  have hneg : ∑ j ∈ Finset.range m, f (xi (m - 1 - j))
      = -∑ j ∈ Finset.range m, f (xi j) := by
    rw [← Finset.sum_neg_distrib]
    refine Finset.sum_congr rfl fun j hj => ?_
    rw [hsym j (Finset.mem_range.mp hj), hf]
  linarith [hrefl, hneg]

/-- At a reflective wall state pair `(h0, -u0) / (h0, u0)` the upwinded
mass integrand is odd in the kinetic velocity, so the mass flux vanishes
on every symmetric grid. -/
lemma kinetic_flux_wall_mass (h0 u0 : ℝ) (xi : ℕ → ℝ) (m : ℕ) (dxi : ℝ)
    (hsym : symGrid xi m) :
    (kinetic_flux h0 (-u0) h0 u0 xi m dxi).1 = 0 := by
  have key : ∑ j ∈ Finset.range m,
      (fun x => x * (if 0 ≤ x then maxwellianP h0 (-u0) h_eps_default x
        else maxwellianP h0 u0 h_eps_default x)) (xi j) = 0 := by
    refine sum_antisym_eq_zero xi m hsym
      (fun x => x * (if 0 ≤ x then maxwellianP h0 (-u0) h_eps_default x
        else maxwellianP h0 u0 h_eps_default x)) fun x => ?_
    rcases lt_trichotomy x 0 with hx | hx | hx
    · have hc1 : (0 : ℝ) ≤ -x := by linarith
      have hc2 : ¬ (0 : ℝ) ≤ x := not_le.mpr hx
      simp only [if_pos hc1, if_neg hc2, maxwellianP_reflect, neg_neg]
      ring
    · subst hx
      simp
    · have hc1 : ¬ (0 : ℝ) ≤ -x := not_le.mpr (by linarith)
      have hc2 : (0 : ℝ) ≤ x := le_of_lt hx
      simp only [if_neg hc1, if_pos hc2, maxwellianP_reflect]
      ring
  simp only [kinetic_flux, maxwellian_apply]
  rw [key, zero_mul]

/-- The mirror-image wall state pair `(h0, u0) / (h0, -u0)` also yields a
vanishing mass flux on every symmetric grid. -/
lemma kinetic_flux_wall_mass_right (h0 u0 : ℝ) (xi : ℕ → ℝ) (m : ℕ)
    (dxi : ℝ) (hsym : symGrid xi m) :
    (kinetic_flux h0 u0 h0 (-u0) xi m dxi).1 = 0 := by
  have := kinetic_flux_wall_mass h0 (-u0) xi m dxi hsym
  rwa [neg_neg] at this

/-- `chi` is strictly positive at `1`, inside its support. -/
lemma chi_one_pos : 0 < chi 1 := by
  unfold chi
  rw [max_eq_left (by norm_num [g])]
  exact mul_pos chi_prefactor_pos (Real.sqrt_pos.mpr (by norm_num [g]))

/-- C5: the interface flux solver upwinds pointwise over the kinetic grid
(left Maxwellian where the kinetic velocity is `≥ 0`, right Maxwellian
where it is `< 0`) and returns exactly the first and second quadrature
moments as (mass flux, momentum flux). -/
theorem C5_kinetic_flux_moments (hL uL hR uR : ℝ) (xi : ℕ → ℝ) (m : ℕ)
    (dxi : ℝ) :
    kinetic_flux hL uL hR uR xi m dxi
      = ((∑ j ∈ Finset.range m, xi j *
            (if 0 ≤ xi j then maxwellian hL uL xi h_eps_default j
             else maxwellian hR uR xi h_eps_default j)) * dxi,
         (∑ j ∈ Finset.range m, xi j ^ 2 *
            (if 0 ≤ xi j then maxwellian hL uL xi h_eps_default j
             else maxwellian hR uR xi h_eps_default j)) * dxi) := rfl

/-- Counterexample for C4: at the reflective wall pair built from the cell
state `h0 = 1`, `u0 = 0` and the symmetric two-point grid `{-1, 1}` with
spacing `1`, the momentum flux returned by the solver is nonzero (it
carries the hydrostatic pressure), refuting the zero-momentum-flux part
of the claim. -/
theorem C4_wall_counterexample :
    symGrid (fun j => if j = 0 then (-1 : ℝ) else 1) 2 ∧
    (kinetic_flux 1 (-0) 1 0 (fun j => if j = 0 then (-1 : ℝ) else 1) 2
        1).2 ≠ 0 := by
  constructor
  · intro j hj
    interval_cases j <;> norm_num
  · have hwet : ¬ (1 : ℝ) ≤ h_eps_default := by norm_num [h_eps_default]
    simp only [kinetic_flux, maxwellian_apply, maxwellianP,
      Finset.sum_range_succ, Finset.sum_range_zero, if_neg hwet]
    norm_num [chi_neg, Real.sqrt_one]
    intro hzero
    have h1 : chi (-1) = chi 1 := chi_neg 1
    nlinarith [chi_one_pos, h1, hzero]

/-- C4 (amended): at both reflective wall state pairs — `(h0, -u0)` left
of `(h0, u0)`, and `(h0, u0)` left of `(h0, -u0)` — the interface flux
solver returns zero mass flux for every cell state and every symmetric
kinetic grid; the momentum flux need not vanish. -/
theorem C4_wall_mass_flux (h0 u0 : ℝ) (xi : ℕ → ℝ) (m : ℕ) (dxi : ℝ)
    (hsym : symGrid xi m) :
    (kinetic_flux h0 (-u0) h0 u0 xi m dxi).1 = 0 ∧
    (kinetic_flux h0 u0 h0 (-u0) xi m dxi).1 = 0 :=
  ⟨kinetic_flux_wall_mass h0 u0 xi m dxi hsym,
   kinetic_flux_wall_mass_right h0 u0 xi m dxi hsym⟩

/-- Witness for C4 (amended) on the symmetric two-point grid `{-1, 1}`. -/
theorem C4_wall_mass_flux_witness :
    symGrid (fun j => if j = 0 then (-1 : ℝ) else 1) 2 ∧
    (kinetic_flux 1 (-0) 1 0 (fun j => if j = 0 then (-1 : ℝ) else 1) 2
        1).1 = 0 := by
  have hs : symGrid (fun j => if j = 0 then (-1 : ℝ) else 1) 2 := by
    intro j hj
    interval_cases j <;> norm_num
  exact ⟨hs, (C4_wall_mass_flux 1 0 (fun j => if j = 0 then (-1 : ℝ) else 1)
    2 1 hs).1⟩

/-- C1: for a field of at least two cells, each cell's pre-clamp update of
the stepping engine equals the claimed formula — depth:
`h - (dt/dx)(F_mass right - F_mass left) + dt S` with `S = R - I`
(`S = R` when `I` is absent); discharge:
`hu - (dt/dx)(F_mom right - F_mom left) + dt S u - dt g h dZdx` with
`u = hu / max(h, h_eps)` and `dZdx` one-sided at the two boundary cells,
central in the interior; the engine then applies exactly the
non-negativity clamp and the dry-cell zeroing to these values. -/
theorem C1_step_update (N : ℕ) (h hu Z R : ℕ → ℝ) (I : Option (ℕ → ℝ))
    (dx dt : ℝ) (xi : ℕ → ℝ) (m : ℕ) (dxi : ℝ) (h_eps : ℝ) (i : ℕ)
    (hN : 1 < N) (_hi : i < N) :
    step_h_upd N h hu R I dx dt xi m dxi h_eps i
        = h i - (dt / dx) * ((step_flux N h hu xi m dxi h_eps (i + 1)).1
            - (step_flux N h hu xi m dxi h_eps i).1)
          + dt * (match I with | none => R i | some Iv => R i - Iv i) ∧
    step_hu_upd N h hu Z R I dx dt xi m dxi h_eps i
        = hu i - (dt / dx) * ((step_flux N h hu xi m dxi h_eps (i + 1)).2
            - (step_flux N h hu xi m dxi h_eps i).2)
          + dt * (match I with | none => R i | some Iv => R i - Iv i)
              * (hu i / max (h i) h_eps)
          - dt * g * h i *
            (if i = 0 then (Z 1 - Z 0) / dx
             else if i = N - 1 then (Z (N - 1) - Z (N - 2)) / dx
             else (Z (i + 1) - Z (i - 1)) / (2 * dx)) ∧
    (step_kinetic N h hu Z R I dx dt xi m dxi h_eps).1 i
        = max (step_h_upd N h hu R I dx dt xi m dxi h_eps i) 0 ∧
    (step_kinetic N h hu Z R I dx dt xi m dxi h_eps).2 i
        = if max (step_h_upd N h hu R I dx dt xi m dxi h_eps i) 0 < h_eps
          then 0
          else step_hu_upd N h hu Z R I dx dt xi m dxi h_eps i := by
  refine ⟨rfl, ?_, rfl, rfl⟩
  have hd : dZdx N Z dx i
      = if i = 0 then (Z 1 - Z 0) / dx
        else if i = N - 1 then (Z (N - 1) - Z (N - 2)) / dx
        else (Z (i + 1) - Z (i - 1)) / (2 * dx) := by
    simp [dZdx, hN]
  simp only [step_hu_upd, step_S, step_u, hd]
  ring

/-- Witness for C1 with two cells, cell `0`, and an empty quadrature
grid. -/
theorem C1_step_update_witness :
    (1 : ℕ) < 2 ∧
    (step_kinetic 2 (fun _ => 0) (fun _ => 0) (fun _ => 0) (fun _ => 0)
        none 1 1 (fun _ => 0) 0 1 1).1 0
      = max (step_h_upd 2 (fun _ => 0) (fun _ => 0) (fun _ => 0) none 1 1
          (fun _ => 0) 0 1 1 0) 0 :=
  ⟨by norm_num,
   (C1_step_update 2 (fun _ => 0) (fun _ => 0) (fun _ => 0) (fun _ => 0)
     none 1 1 (fun _ => 0) 0 1 1 0 (by norm_num) (by norm_num)).2.2.1⟩

/-- C2: after one step the returned depth is nonnegative in every cell,
and every cell whose new depth is strictly below `h_eps` has its returned
discharge equal to exactly `0`, for every input state. -/
theorem C2_step_invariants (N : ℕ) (h hu Z R : ℕ → ℝ) (I : Option (ℕ → ℝ))
    (dx dt : ℝ) (xi : ℕ → ℝ) (m : ℕ) (dxi : ℝ) (h_eps : ℝ) (i : ℕ) :
    0 ≤ (step_kinetic N h hu Z R I dx dt xi m dxi h_eps).1 i ∧
    ((step_kinetic N h hu Z R I dx dt xi m dxi h_eps).1 i < h_eps →
      (step_kinetic N h hu Z R I dx dt xi m dxi h_eps).2 i = 0) := by
  constructor
  · exact le_max_right _ _
  · intro hdry
    simp only [step_kinetic] at hdry ⊢
    exact if_pos hdry

/-- Witness for C2: an all-dry state with `h_eps = 1` lands in the
dry-cell branch and the discharge is zeroed. -/
theorem C2_step_invariants_witness :
    (step_kinetic 1 (fun _ => 0) (fun _ => 0) (fun _ => 0) (fun _ => 0)
        none 1 1 (fun _ => 0) 0 1 1).1 0 < 1 ∧
    (step_kinetic 1 (fun _ => 0) (fun _ => 0) (fun _ => 0) (fun _ => 0)
        none 1 1 (fun _ => 0) 0 1 1).2 0 = 0 := by
  have heval : (step_kinetic 1 (fun _ => 0) (fun _ => 0) (fun _ => 0)
      (fun _ => 0) none 1 1 (fun _ => 0) 0 1 1).1 0 < 1 := by
    simp [step_kinetic, step_h_upd, step_flux, kinetic_flux, step_S]
  exact ⟨heval,
    (C2_step_invariants 1 (fun _ => 0) (fun _ => 0) (fun _ => 0)
      (fun _ => 0) none 1 1 (fun _ => 0) 0 1 1 0).2 heval⟩

/-- C3: with zero rainfall, no infiltration, flat topography and a
symmetric kinetic grid, one step of the engine leaves the total mass
`sum(h) * dx` exactly unchanged whenever the non-negativity clamp is
inactive (no pre-clamp depth is negative): the interior fluxes telescope
and the reflective wall fluxes carry no mass. -/
theorem C3_mass_conservation (N : ℕ) (h hu Z R : ℕ → ℝ)
    (I : Option (ℕ → ℝ)) (dx dt : ℝ) (xi : ℕ → ℝ) (m : ℕ) (dxi : ℝ)
    (h_eps : ℝ) (hR : ∀ i, R i = 0) (hI : I = none) (_hZ : ∀ i, Z i = 0)
    (hsym : symGrid xi m)
    (hnoclamp : ∀ i < N, 0 ≤ step_h_upd N h hu R I dx dt xi m dxi h_eps i) :
    ∑ i ∈ Finset.range N,
        (step_kinetic N h hu Z R I dx dt xi m dxi h_eps).1 i * dx
      = ∑ i ∈ Finset.range N, h i * dx := by
  rcases Nat.eq_zero_or_pos N with hN0 | hNpos
  · subst hN0
    simp
  have hstep : ∀ i ∈ Finset.range N,
      (step_kinetic N h hu Z R I dx dt xi m dxi h_eps).1 i * dx
        = h i * dx - ((dt / dx) * dx) *
            ((step_flux N h hu xi m dxi h_eps (i + 1)).1
              - (step_flux N h hu xi m dxi h_eps i).1) := by
    intro i hi
    have h1 : (step_kinetic N h hu Z R I dx dt xi m dxi h_eps).1 i
        = max (step_h_upd N h hu R I dx dt xi m dxi h_eps i) 0 := rfl
    rw [h1, max_eq_left (hnoclamp i (Finset.mem_range.mp hi))]
    simp only [step_h_upd, step_S, hI]
    rw [hR i]
    ring
  rw [Finset.sum_congr rfl hstep, Finset.sum_sub_distrib]
  have htel : ∑ i ∈ Finset.range N,
      ((dt / dx) * dx) * ((step_flux N h hu xi m dxi h_eps (i + 1)).1
        - (step_flux N h hu xi m dxi h_eps i).1)
      = ((dt / dx) * dx) * ((step_flux N h hu xi m dxi h_eps N).1
        - (step_flux N h hu xi m dxi h_eps 0).1) := by
    rw [← Finset.mul_sum,
      Finset.sum_range_sub (fun i => (step_flux N h hu xi m dxi h_eps i).1) N]
  rw [htel]
  have hF0 : (step_flux N h hu xi m dxi h_eps 0).1 = 0 := by
    simp only [step_flux, if_pos rfl]
    exact kinetic_flux_wall_mass (h 0) (step_u h hu h_eps 0) xi m dxi hsym
  have hFN : (step_flux N h hu xi m dxi h_eps N).1 = 0 := by
    have hN0 : N ≠ 0 := Nat.pos_iff_ne_zero.mp hNpos
    simp only [step_flux, if_neg hN0, if_pos rfl]
    exact kinetic_flux_wall_mass_right (h (N - 1)) (step_u h hu h_eps (N - 1))
      xi m dxi hsym
  rw [hF0, hFN]
  ring

/-- Witness for C3 on a one-cell dry state with an empty quadrature
grid. -/
theorem C3_mass_conservation_witness :
    symGrid (fun _ => (0 : ℝ)) 0 ∧
    ∑ i ∈ Finset.range 1,
        (step_kinetic 1 (fun _ => 0) (fun _ => 0) (fun _ => 0) (fun _ => 0)
          none 1 1 (fun _ => 0) 0 1 1).1 i * 1
      = ∑ i ∈ Finset.range 1, (fun _ => (0 : ℝ)) i * 1 := by
  have hs : symGrid (fun _ => (0 : ℝ)) 0 := fun j hj =>
    absurd hj (Nat.not_lt_zero j)
  refine ⟨hs, C3_mass_conservation 1 (fun _ => 0) (fun _ => 0) (fun _ => 0)
    (fun _ => 0) none 1 1 (fun _ => 0) 0 1 1 (fun _ => rfl) rfl
    (fun _ => rfl) hs ?_⟩
  intro i hi
  interval_cases i
  simp [step_h_upd, step_flux, kinetic_flux, step_S]

/-- C8: the wave-speed estimator returns exactly the field-wide maximum
over the `n + 1` cells of `|u| + sqrt(2 g max(h, h_eps))`: it bounds
every cell's value and is attained at some cell. -/
theorem C8_max_wave_speed (n : ℕ) (h u : ℕ → ℝ) (h_eps : ℝ) :
    (∀ i ∈ Finset.range (n + 1),
        |u i| + Real.sqrt (2 * g * max (h i) h_eps)
          ≤ max_wave_speed n h u h_eps) ∧
    (∃ i ∈ Finset.range (n + 1),
        max_wave_speed n h u h_eps
          = |u i| + Real.sqrt (2 * g * max (h i) h_eps)) := by
  unfold max_wave_speed
  exact ⟨fun _ hi =>
    Finset.le_sup' (fun i => |u i| + Real.sqrt (2 * g * max (h i) h_eps)) hi,
    Finset.exists_mem_eq_sup' Finset.nonempty_range_succ _⟩

/-- Witness for C8 on a one-cell zero field. -/
theorem C8_max_wave_speed_witness :
    |(0 : ℝ)| + Real.sqrt (2 * g * max (0 : ℝ) 0)
      ≤ max_wave_speed 0 (fun _ => 0) (fun _ => 0) 0 :=
  (C8_max_wave_speed 0 (fun _ => 0) (fun _ => 0) 0).1 0 (by simp)

/-- C9: with a positive dry tolerance the stepping engine is total: the
velocity divisor `max(h, h_eps)` is bounded below by `h_eps > 0` in every
cell, and the engine always returns the clamped update pair. -/
theorem C9_step_total (N : ℕ) (h hu Z R : ℕ → ℝ) (I : Option (ℕ → ℝ))
    (dx dt : ℝ) (xi : ℕ → ℝ) (m : ℕ) (dxi : ℝ) (h_eps : ℝ)
    (hpos : 0 < h_eps) :
    (∀ i, h_eps ≤ max (h i) h_eps ∧ 0 < max (h i) h_eps) ∧
    (∀ i, step_u h hu h_eps i = hu i / max (h i) h_eps) ∧
    step_kinetic N h hu Z R I dx dt xi m dxi h_eps
      = (fun i => max (step_h_upd N h hu R I dx dt xi m dxi h_eps i) 0,
         fun i =>
           if max (step_h_upd N h hu R I dx dt xi m dxi h_eps i) 0 < h_eps
           then 0
           else step_hu_upd N h hu Z R I dx dt xi m dxi h_eps i) :=
  ⟨fun _ => ⟨le_max_right _ _, lt_of_lt_of_le hpos (le_max_right _ _)⟩,
   fun _ => rfl, rfl⟩

/-- Witness for C9 with tolerance `1`. -/
theorem C9_step_total_witness : (0 : ℝ) < 1 ∧ (0 : ℝ) < max (0 : ℝ) 1 :=
  ⟨by norm_num,
   ((C9_step_total 1 (fun _ => 0) (fun _ => 0) (fun _ => 0) (fun _ => 0)
     none 1 1 (fun _ => 0) 0 1 1 (by norm_num)).1 0).2⟩

/-- C10: the driver's returned depth is the elementwise maximum of the
final state depth and `1e-8`, hence at least `1e-8` and strictly
positive; a cell whose state depth ended below `1e-8` returns `1e-8`
itself, and the returned velocity is the discharge divided by the
floored depth. -/
theorem C10_run_finalize (h hu : ℕ → ℝ) (i : ℕ) :
    (run_finalize h hu).1 i = max (h i) 1e-8 ∧
    (1e-8 : ℝ) ≤ (run_finalize h hu).1 i ∧
    0 < (run_finalize h hu).1 i ∧
    (h i < 1e-8 → (run_finalize h hu).1 i = (1e-8 : ℝ)) ∧
    (run_finalize h hu).2 i = hu i / max (h i) 1e-8 := by
  refine ⟨rfl, le_max_right _ _, ?_, ?_, rfl⟩
  · exact lt_of_lt_of_le (by norm_num) (le_max_right _ _)
  · intro hlt
    exact max_eq_right (le_of_lt hlt)

/-- Witness for C10 on a fully dry final state. -/
theorem C10_run_finalize_witness :
    (0 : ℝ) < 1e-8 ∧
    (run_finalize (fun _ => 0) (fun _ => 0)).1 0 = (1e-8 : ℝ) :=
  ⟨by norm_num,
   (C10_run_finalize (fun _ => 0) (fun _ => 0) 0).2.2.2.1 (by norm_num)⟩

end KineticSW
